import Mathlib

set_option maxRecDepth 10000

/-!
Verification of the 101FM data logger firmware (polling branch).

The development shallowly embeds the persistent log + header subsystem of
the firmware: the two 24LC512 EEPROMs are modelled as byte-addressed
memories (`Mem`), the `DataHeader` record, the header directory operations
(`read_data_header`, `write_data_header`, the boot-time header search),
the event-log append (`record_data_page_write_mode`), the log read-back
walks (`responseLog`, `dump_log`), the clear operation, and the polling
pin-change detector (`detect_pin_changes`).  Machine integers are `Nat`
with explicit `% 65536` (uint16) and `% 4294967296` (uint32) where the C
code can wrap; EEPROM bytes are `% 256` (uint8).  Write success of the
I2C `writeBlock` calls (which return a nonzero error code on failure) is
modelled by boolean oracles `okD`/`okH` (`true` = the write succeeded).
-/

namespace DataLogger

/-- A byte-addressable 64KB EEPROM, as a function from addresses to byte values. -/
abbrev Mem := Nat → Nat

/-- A memory holding the constant byte `v` everywhere (e.g. `255` for an erased chip). -/
def constMem (v : Nat) : Mem := fun _ => v

/-- Sequential block write of `I2C_eeprom::writeBlock`: bytes of `data` land at
consecutive addresses starting at `addr`, the 16-bit device address wrapping
mod 65536; stored values are bytes (mod 256). -/
def writeBlockMem : Mem → Nat → List Nat → Mem
  | m, _, [] => m
  | m, addr, d :: ds =>
      writeBlockMem (fun x => if x = addr % 65536 then d % 256 else m x) (addr + 1) ds

/-- Sequential block read of `I2C_eeprom::readBlock`: `len` bytes starting at
`addr`, the 16-bit device address wrapping mod 65536. -/
def readBlockMem (m : Mem) : Nat → Nat → List Nat
  | _, 0 => []
  | addr, len + 1 => m (addr % 65536) % 256 :: readBlockMem m (addr + 1) len

/-- The in-RAM `struct DataHeader`: `a` is the address just past the newest log
record, `b` the address of the oldest live record, `t` the inverted unix time
of the last commit. -/
structure DataHeader where
  a : Nat
  b : Nat
  t : Nat
deriving Repr, DecidableEq

/-- Decoding of an 8-byte header block exactly as `read_data_header` does:
`t` from bytes 0-3 little-endian, `a` from bytes 4-5, `b` from bytes 6-7.
The C code assembles the fields with bitwise-or of shifted bytes; since the
byte ranges are disjoint this equals the sum written here. -/
def decodeHeader (blk : List Nat) : DataHeader :=
  { a := blk.getD 4 0 + blk.getD 5 0 * 256,
    b := blk.getD 6 0 + blk.getD 7 0 * 256,
    t := blk.getD 0 0 + blk.getD 1 0 * 256 + blk.getD 2 0 * 65536
         + blk.getD 3 0 * 16777216 }

/-- Encoding of a header into its 8-byte slot form exactly as
`write_data_header` fills `dh_block`: for a 16-bit field, `x & 0xff = x % 256`
and `(x & 0xff00) >> 8 = x / 256 % 256`, and similarly for the four bytes of
the 32-bit `t`. -/
def encodeHeader (h : DataHeader) : List Nat :=
  [ h.t % 256, h.t / 256 % 256, h.t / 65536 % 256, h.t / 16777216 % 256,
    h.a % 256, h.a / 256 % 256,
    h.b % 256, h.b / 256 % 256 ]

/-- The global mutable state of the firmware that the log subsystem touches:
the header-slot cursor `dh_addr`, the in-RAM header `dh`, and the two EEPROMs
`ee_h` (header + channel names) and `ee_d` (log data). -/
structure LoggerState where
  dh_addr : Nat
  dh : DataHeader
  ee_h : Mem
  ee_d : Mem

/-- The firmware function `read_data_header`: reads 8 bytes at `dh_addr` from
the header EEPROM and decodes them into the in-RAM header. -/
def read_data_header (st : LoggerState) : LoggerState :=
  { st with dh := decodeHeader (readBlockMem st.ee_h st.dh_addr 8) }

/-- The header currently stored in the header EEPROM at the cursor address,
i.e. what `read_data_header` would load. -/
def storedHeader (st : LoggerState) : DataHeader :=
  decodeHeader (readBlockMem st.ee_h st.dh_addr 8)

/-- The cursor step of `write_data_header`: `dh_addr -= 0x0080` on a uint16,
then `if (dh_addr == 0x0f80) dh_addr = 0xff80`. -/
def nextSlot (addr : Nat) : Nat :=
  if (addr + 65536 - 128) % 65536 = 3968 then 65408 else (addr + 65536 - 128) % 65536

/-- The firmware function `write_data_header`: recomputes
`dh->t = 0xffffffff - t.unixtime`, encodes the header into `dh_block`,
advances the wear-leveling cursor with `nextSlot`, and writes the 8-byte
block at the new cursor address.  `now` is the RTC unix time and `okH` tells
whether the EEPROM write succeeds (the C code only prints on failure). -/
def write_data_header (st : LoggerState) (now : Nat) (okH : Bool) : LoggerState :=
  let dh1 : DataHeader := { st.dh with t := 4294967295 - now % 4294967296 }
  let addr1 := nextSlot st.dh_addr
  { st with
      dh := dh1,
      dh_addr := addr1,
      ee_h := if okH then writeBlockMem st.ee_h addr1 (encodeHeader dh1) else st.ee_h }

/-- The firmware function `record_data_page_write_mode` (polling branch):
re-reads the header, writes the 64-byte record at `dh->a` on the data EEPROM;
if that write fails (`okD = false`, i.e. `writeBlock` returned nonzero)
nothing else happens; on success `dh->a += 0x0040` (uint16), if the new `a`
equals `b` then `dh->b += 0x0040` too, and the header is committed via
`write_data_header`. -/
def record_data_page_write_mode (st0 : LoggerState) (data : List Nat)
    (okD okH : Bool) (now : Nat) : LoggerState :=
  let st := read_data_header st0
  if okD then
    let st1 : LoggerState := { st with ee_d := writeBlockMem st.ee_d st.dh.a data }
    let a1 := (st1.dh.a + 64) % 65536
    let b1 := if a1 = st1.dh.b then (st1.dh.b + 64) % 65536 else st1.dh.b
    write_data_header { st1 with dh := { st1.dh with a := a1, b := b1 } } now okH
  else st

/-- The clear operation (`GET /clr` handler, `clear_logs` in the older source):
`dh->b = dh->a` using the in-memory header, then `write_data_header`. -/
def clear_logs (st : LoggerState) (now : Nat) (okH : Bool) : LoggerState :=
  write_data_header { st with dh := { st.dh with b := st.dh.a } } now okH

/-- The backward record walk shared by `responseLog` and the `/dump` handler:
while `addra != addrb`, read the 64-byte record at `addra - 0x0040` (uint16)
and step `addra` down by 0x40.  `fuel` bounds the number of iterations:
`responseLog` stops after 32 records (`i == 0x1f`), the `/dump` loop is
unbounded in the source but can emit at most 1024 records before `addra`
returns to its starting value, so fuel 1024 is exact on any state whose
live byte range is a multiple of 64. -/
def logWalk (m : Mem) : Nat → Nat → Nat → List (List Nat)
  | 0, _, _ => []
  | fuel + 1, addra, addrb =>
      if addra = addrb then []
      else
        let addra1 := (addra + 65536 - 64) % 65536
        readBlockMem m addra1 64 :: logWalk m fuel addra1 addrb

/-- The firmware function `responseLog` (bodies only): re-reads the header;
if `a != b` it emits records newest-first, at most 32 of them (`i == 0x1f`
break); otherwise it emits the `no data` body, modelled as `none`. -/
def responseLog (st : LoggerState) : Option (List (List Nat)) :=
  let h := storedHeader st
  if h.a ≠ h.b then some (logWalk st.ee_d 32 h.a h.b) else none

/-- The `GET /dump` handler's unbounded walk (bodies only): like `responseLog`
but with no 32-record cap; `none` is the `no data` body. -/
def dump_log (st : LoggerState) : Option (List (List Nat)) :=
  let h := storedHeader st
  if h.a ≠ h.b then some (logWalk st.ee_d 1024 h.a h.b) else none

/-- The header-slot addresses scanned at boot, in scan order: the do-while
loop starts at `addr = 0xff80`, steps by `addr -= 0x80`, and runs while
`addr > 0x0f80`, so it visits 0xff80, 0xff00, ..., 0x1000 — 480 slots. -/
def slotAddrs : List Nat := (List.range 480).map fun i => 65408 - 128 * i

/-- The scanned slot addresses after the first one. -/
def slotTail : List Nat := (List.range 479).map fun i => 65280 - 128 * i

/-- The first 240 scanned slot addresses (used to evaluate the scan in two
halves). -/
def slotsA : List Nat := (List.range 240).map fun i => 65408 - 128 * i

/-- The last 240 scanned slot addresses. -/
def slotsB : List Nat := (List.range 240).map fun i => 34688 - 128 * i

/-- The 32-bit `inv(unixtime)` key decoded from the first 4 bytes of a header
slot, as the boot scan builds `val` (little-endian; bitwise-or of disjoint
shifted bytes written as a sum). -/
def decodeKey (m : Mem) (addr : Nat) : Nat :=
  let blk := readBlockMem m addr 8
  blk.getD 0 0 + blk.getD 1 0 * 256 + blk.getD 2 0 * 65536 + blk.getD 3 0 * 16777216

/-- One iteration of the boot header search: `if (val <= unix_tm_inv)
{ unix_tm_inv = val; dh_addr = addr; }`. -/
def scanStep (m : Mem) (best : Nat × Nat) (addr : Nat) : Nat × Nat :=
  if decodeKey m addr ≤ best.1 then (decodeKey m addr, addr) else best

/-- The boot-time data header search in `setup`: scan every slot, keeping the
running minimum key and its address, starting from
`unix_tm_inv = 0xffffffff` and the initial `dh_addr = 0xff80`.
Returns the final `(unix_tm_inv, dh_addr)`. -/
def header_search (m : Mem) : Nat × Nat :=
  List.foldl (scanStep m) (4294967295, 65408) slotAddrs

/-- Boot recovery: run the header search over the header EEPROM, then
`read_data_header` from the selected slot. -/
def recoverState (eeH eeD : Mem) : LoggerState :=
  read_data_header { dh_addr := (header_search eeH).2, dh := ⟨0, 0, 0⟩,
                     ee_h := eeH, ee_d := eeD }

/-- The header-slot cursor after `n` commits, starting from the boot value
`dh_addr = 0xff80`. -/
def dhAddrAfter : Nat → Nat
  | 0 => 65408
  | n + 1 => nextSlot (dhAddrAfter n)

/-- The list of physical slot addresses written by the first `M` commits
(commit `i+1` writes at the cursor value after `i+1` steps). -/
def commitAddrs (M : Nat) : List Nat := (List.range M).map fun i => dhAddrAfter (i + 1)

/-- The slot-address set asserted by the wear-distribution claim:
`start - (i mod slot_count) * stride` for `i` in `0..M` (taken inclusively;
the exclusive reading is the prefix of the same list and also contains
the region start address 0xff80 at `i = 0`). -/
def wearAddrsClaimed (M : Nat) : List Nat :=
  (List.range (M + 1)).map fun i => 65408 - (i % 480) * 128

/-- The per-bank debounce state of the polling detector: former sample
(`mcp00_bits`), most recent sample (`mcp01_bits`), and confirmed settled
values (`mcp0_settled_bits`), each a 16-bit bitset. -/
structure DetState where
  former : Nat
  recent : Nat
  settled : Nat
deriving Repr, DecidableEq

/-- The firmware function `detect_pin_changes` for one MCP23017 bank:
XOR the fresh sample against the sample from two ticks ago, shift the
two-deep history, and for each changed pin require the two most recent
samples to agree (settled) and to differ from the confirmed value before
emitting one event and updating the confirmed bit.  Clearing a bit of the
16-bit settled set (`&= ~(1 << pin)` in C) is `&&& (65535 ^^^ (1 <<< pin))`.
Events are returned as `(pin, value-is-ON)` pairs; the firmware appends one
log record per event. -/
def detect_pin_changes (st : DetState) (sample : Nat) : DetState × List (Nat × Bool) :=
  let changedBits := st.former ^^^ sample
  let former1 := st.recent
  let recent1 := sample
  if changedBits ≠ 0 then
    let res := (List.range 16).foldl (fun acc pin =>
      if (changedBits >>> pin) &&& 1 ≠ 0 then
        let val0 := (former1 >>> pin) &&& 1
        if val0 = (recent1 >>> pin) &&& 1 then
          if (acc.1 >>> pin) &&& 1 ≠ val0 then
            ( if val0 ≠ 0 then acc.1 ||| (1 <<< pin)
              else acc.1 &&& (65535 ^^^ (1 <<< pin))
            , acc.2 ++ [(pin, val0 != 0)])
          else acc
        else acc
      else acc) (st.settled, ([] : List (Nat × Bool)))
    (⟨former1, recent1, res.1⟩, res.2)
  else (⟨former1, recent1, st.settled⟩, [])

/-- Feeding a sequence of per-tick samples to the detector, collecting all
emitted events in order. -/
def feedSamples (st : DetState) (samples : List Nat) : DetState × List (Nat × Bool) :=
  samples.foldl (fun acc s =>
    let r := detect_pin_changes acc.1 s
    (r.1, acc.2 ++ r.2)) (st, [])

/-- A logger state whose header EEPROM stores an empty-log header
(`a = b = a0`, key `t0`) at slot number `j0` (address `0xff80 - 0x80 * j0`),
with arbitrary other header bytes `h0`, arbitrary data EEPROM `d0`, and
arbitrary in-RAM header (every operation re-reads it first). -/
def emptyStart (j0 t0 a0 : Nat) (h0 d0 : Mem) : LoggerState :=
  { dh_addr := 65408 - 128 * j0,
    dh := ⟨0, 0, 0⟩,
    ee_h := writeBlockMem h0 (65408 - 128 * j0) (encodeHeader ⟨a0, a0, t0⟩),
    ee_d := d0 }

/-- Appending a list of records in order, every EEPROM write succeeding,
with RTC time `now`. -/
def appendAll (st : LoggerState) (rs : List (List Nat)) (now : Nat) : LoggerState :=
  rs.foldl (fun s r => record_data_page_write_mode s r true true now) st

/-- Invariant characterising the logger state after the records `ws` have
been appended (in order, all writes succeeding) into an empty log that
started with `a = b = a0` and slot cursor `j0`: the cursor has advanced
`ws.length` slots, the stored header bounds are the ring arithmetic of the
append count, and every live record reads back. -/
def ringInv (a0 j0 : Nat) (ws : List (List Nat)) (st : LoggerState) : Prop :=
  st.dh_addr = 65408 - 128 * ((j0 + ws.length) % 480) ∧
  (storedHeader st).a = (a0 + 64 * ws.length) % 65536 ∧
  (storedHeader st).b = (a0 + 64 * (ws.length - 1023)) % 65536 ∧
  ∀ m, ws.length - 1023 ≤ m → m < ws.length →
    readBlockMem st.ee_d ((a0 + 64 * m) % 65536) 64 = ws.getD m []

/-- Concrete header EEPROM: erased chip with a header `a = 0x100, b = 0,
t = 1000` stored at slot 0xff80. -/
def tmem : Mem := writeBlockMem (constMem 255) 65408 (encodeHeader ⟨256, 0, 1000⟩)

/-- Concrete consistent logger state used by the witnesses: in-RAM header
matches the slot stored at the cursor 0xff80. -/
def tstate : LoggerState := ⟨65408, ⟨256, 0, 1000⟩, tmem, constMem 255⟩

/-- Concrete header EEPROM with a key tie: slots 0xff80 and 0xff00 both hold
key 5, every other slot reads as erased (key 0xffffffff). -/
def c1mem : Mem :=
  writeBlockMem (writeBlockMem (constMem 255) 65408 [5, 0, 0, 0]) 65280 [5, 0, 0, 0]

/-- A 64-byte record with every byte `v`. -/
def recOf (v : Nat) : List Nat := List.replicate 64 v

/-- Concrete list of 1025 = capacity + 1 records. -/
def c4rs : List (List Nat) := List.replicate 1025 (recOf 0)

/-- The state after appending 1025 records into an empty log starting at
`a = b = 0`, slot 0xff80. -/
def c4st : LoggerState := appendAll (emptyStart 0 77 0 (constMem 255) (constMem 255)) c4rs 5000

/-- The state after appending 3 records into an empty log starting at
`a = b = 0`, slot 0xff80 (the concrete spec scenario). -/
def c5st3 : LoggerState :=
  appendAll (emptyStart 0 77 0 (constMem 255) (constMem 255))
    [recOf 65, recOf 66, recOf 67] 5000

/-- The concrete scenario state after the subsequent clear. -/
def c5cleared : LoggerState := clear_logs c5st3 6000 true

/-- Bytes written by `writeBlockMem` land only at the addresses
`(addr + k) % 65536` for `k` below the data length; any other cell is
untouched. -/
theorem writeBlockMem_eq_of_notin (data : List Nat) :
    ∀ (m : Mem) (addr x : Nat), (∀ k, k < data.length → x ≠ (addr + k) % 65536) →
      writeBlockMem m addr data x = m x := by
  induction data with
  | nil => intro m addr x _; rfl
  | cons d ds ih =>
      intro m addr x h
      have h0 : x ≠ addr % 65536 := by
        have h' := h 0 (by simp)
        simpa using h'
      have hrest : ∀ k, k < ds.length → x ≠ (addr + 1 + k) % 65536 := by
        intro k hk
        have h' := h (k + 1) (by simp; omega)
        rw [show addr + 1 + k = addr + (k + 1) by omega]
        exact h'
      simp only [writeBlockMem]
      rw [ih _ _ _ hrest]
      simp [h0]

/-- Reading a block that is address-disjoint from a block write sees the old
memory. -/
theorem readBlockMem_write_of_disjoint (L : Nat) :
    ∀ (raddr : Nat) (m : Mem) (waddr : Nat) (data : List Nat),
      (∀ i, i < L → ∀ k, k < data.length → (raddr + i) % 65536 ≠ (waddr + k) % 65536) →
      readBlockMem (writeBlockMem m waddr data) raddr L = readBlockMem m raddr L := by
  induction L with
  | zero => intro raddr m waddr data _; rfl
  | succ n ih =>
      intro raddr m waddr data h
      have hhead : writeBlockMem m waddr data (raddr % 65536) = m (raddr % 65536) := by
        apply writeBlockMem_eq_of_notin
        intro k hk
        have h' := h 0 (by omega) k hk
        simpa using h'
      have htail : ∀ i, i < n → ∀ k, k < data.length →
          (raddr + 1 + i) % 65536 ≠ (waddr + k) % 65536 := by
        intro i hi k hk
        have h' := h (i + 1) (by omega) k hk
        rw [show raddr + 1 + i = raddr + (i + 1) by omega]
        exact h'
      simp only [readBlockMem]
      rw [hhead, ih _ _ _ _ htail]

/-- Reading back a freshly written block returns the written data, provided
the data is at most 65536 bytes (so the wrapped addresses are distinct) and
consists of bytes. -/
theorem readBlockMem_writeBlockMem (data : List Nat) :
    ∀ (m : Mem) (addr : Nat), data.length ≤ 65536 → (∀ x ∈ data, x < 256) →
      readBlockMem (writeBlockMem m addr data) addr data.length = data := by
  induction data with
  | nil => intro m addr _ _; rfl
  | cons d ds ih =>
      intro m addr hlen hb
      simp only [writeBlockMem, List.length_cons, readBlockMem]
      have hd : d < 256 := hb d (by simp)
      have hhead :
          writeBlockMem (fun y => if y = addr % 65536 then d % 256 else m y)
            (addr + 1) ds (addr % 65536) = d % 256 := by
        rw [writeBlockMem_eq_of_notin]
        · simp
        · intro k hk
          simp only [List.length_cons] at hlen
          omega
      rw [hhead]
      have htail := ih (fun y => if y = addr % 65536 then d % 256 else m y) (addr + 1)
        (by simp at hlen; omega) (fun x hx => hb x (by simp [hx]))
      rw [htail]
      simp [Nat.mod_eq_of_lt hd]

/-- A block read has the requested length. -/
theorem readBlockMem_length (m : Mem) : ∀ (L addr : Nat), (readBlockMem m addr L).length = L := by
  intro L
  induction L with
  | zero => intro addr; rfl
  | succ n ih => intro addr; simp [readBlockMem, ih]

/-- Every byte obtained from a block read (or the getD default) is below 256. -/
theorem readBlockMem_getD_lt (m : Mem) :
    ∀ (L addr i : Nat), (readBlockMem m addr L).getD i 0 < 256 := by
  intro L
  induction L with
  | zero => intro addr i; simp [readBlockMem]
  | succ n ih =>
      intro addr i
      cases i with
      | zero => simpa [readBlockMem] using Nat.mod_lt _ (show 0 < 256 by norm_num)
      | succ j => simpa [readBlockMem] using ih (addr + 1) j

/-- The stored header's newest address is a uint16 value. -/
theorem storedHeader_a_lt (st : LoggerState) : (storedHeader st).a < 65536 := by
  have h4 := readBlockMem_getD_lt st.ee_h 8 st.dh_addr 4
  have h5 := readBlockMem_getD_lt st.ee_h 8 st.dh_addr 5
  simp only [storedHeader, decodeHeader]
  omega

/-- The stored header's oldest address is a uint16 value. -/
theorem storedHeader_b_lt (st : LoggerState) : (storedHeader st).b < 65536 := by
  have h6 := readBlockMem_getD_lt st.ee_h 8 st.dh_addr 6
  have h7 := readBlockMem_getD_lt st.ee_h 8 st.dh_addr 7
  simp only [storedHeader, decodeHeader]
  omega

/-- The header slot encoding round-trips through the byte level. -/
theorem decode_encode (h : DataHeader) (ha : h.a < 65536) (hb : h.b < 65536)
    (ht : h.t < 4294967296) : decodeHeader (encodeHeader h) = h := by
  cases h with
  | mk a b t =>
      simp only [encodeHeader, decodeHeader] at *
      simp only [List.getD_cons_zero, List.getD_cons_succ]
      congr 1 <;> omega

/-- Every byte of an encoded header is below 256. -/
theorem encodeHeader_bytes_lt (h : DataHeader) : ∀ x ∈ encodeHeader h, x < 256 := by
  intro x hx
  simp only [encodeHeader, List.mem_cons, List.not_mem_nil, or_false] at hx
  rcases hx with rfl | rfl | rfl | rfl | rfl | rfl | rfl | rfl <;>
    exact Nat.mod_lt _ (by norm_num)

/-- Writing an encoded header and reading those 8 bytes back (as
`write_data_header` then `read_data_header` do) recovers the header. -/
theorem storedHeader_roundtrip (m : Mem) (addr : Nat) (h : DataHeader)
    (ha : h.a < 65536) (hb : h.b < 65536) (ht : h.t < 4294967296) :
    decodeHeader (readBlockMem (writeBlockMem m addr (encodeHeader h)) addr 8) = h := by
  have h8 : (8 : Nat) = (encodeHeader h).length := rfl
  rw [h8, readBlockMem_writeBlockMem _ _ _ (by rw [← h8]; omega) (encodeHeader_bytes_lt h),
    decode_encode h ha hb ht]

/-- The wear-leveling cursor steps down one slot per commit and wraps from the
lowest slot exactly back to 0xff80: in slot-index form, `nextSlot` maps slot
`j mod 480` to slot `(j+1) mod 480`. -/
theorem nextSlot_formula (j : Nat) :
    nextSlot (65408 - 128 * (j % 480)) = 65408 - 128 * ((j + 1) % 480) := by
  have hj : j % 480 < 480 := Nat.mod_lt _ (by norm_num)
  simp only [nextSlot]
  split <;> omega

/-- Closed form of the cursor after `n` commits from the boot value. -/
theorem dhAddrAfter_formula (n : Nat) : dhAddrAfter n = 65408 - 128 * (n % 480) := by
  induction n with
  | zero => rfl
  | succ k ih => rw [dhAddrAfter, ih, nextSlot_formula]

/-- A decoded slot key is a uint32 value, hence never exceeds the scan's
initial `unix_tm_inv = 0xffffffff`. -/
theorem decodeKey_le (m : Mem) (addr : Nat) : decodeKey m addr ≤ 4294967295 := by
  have h0 := readBlockMem_getD_lt m 8 addr 0
  have h1 := readBlockMem_getD_lt m 8 addr 1
  have h2 := readBlockMem_getD_lt m 8 addr 2
  have h3 := readBlockMem_getD_lt m 8 addr 3
  simp only [decodeKey]
  omega

/-- Specification of the boot scan's fold over a strictly descending address
list, starting from a best candidate `(v, w)` whose key is `v` and whose
address `w` lies above the whole list: the result is an address achieving
the minimum key, and among equal keys the one scanned last (the smallest
address) wins. -/
theorem scan_fold_spec (m : Mem) (l : List Nat) :
    ∀ (v w : Nat), (∀ c ∈ l, c < w) → l.Pairwise (· > ·) → decodeKey m w = v →
      decodeKey m (List.foldl (scanStep m) (v, w) l).2 = (List.foldl (scanStep m) (v, w) l).1 ∧
      (List.foldl (scanStep m) (v, w) l).1 ≤ v ∧
      (∀ c ∈ l, (List.foldl (scanStep m) (v, w) l).1 ≤ decodeKey m c) ∧
      ((List.foldl (scanStep m) (v, w) l).2 = w ∨ (List.foldl (scanStep m) (v, w) l).2 ∈ l) ∧
      (∀ c ∈ l, decodeKey m c = (List.foldl (scanStep m) (v, w) l).1 →
        (List.foldl (scanStep m) (v, w) l).2 ≤ c) ∧
      (List.foldl (scanStep m) (v, w) l).2 ≤ w := by
  induction l with
  | nil =>
      intro v w _ _ hk
      exact ⟨by simpa using hk, le_refl _, by simp, Or.inl rfl, by simp, le_refl _⟩
  | cons a t ih =>
      intro v w hlt hpw hk
      rw [List.pairwise_cons] at hpw
      obtain ⟨hat, hpt⟩ := hpw
      by_cases hstep : decodeKey m a ≤ v
      · have hfold : List.foldl (scanStep m) (v, w) (a :: t)
            = List.foldl (scanStep m) (decodeKey m a, a) t := by
          simp [List.foldl_cons, scanStep, hstep]
        obtain ⟨i1, i2, i3, i4, i5, i6⟩ := ih (decodeKey m a) a hat hpt rfl
        rw [hfold]
        refine ⟨i1, le_trans i2 hstep, ?_, ?_, ?_, ?_⟩
        · intro c hc
          rcases List.mem_cons.mp hc with rfl | hc'
          · exact i2
          · exact i3 c hc'
        · rcases i4 with h' | h'
          · exact Or.inr (by simp [h'])
          · exact Or.inr (List.mem_cons_of_mem _ h')
        · intro c hc hkey
          rcases List.mem_cons.mp hc with rfl | hc'
          · exact i6
          · exact i5 c hc' hkey
        · exact le_trans i6 (le_of_lt (hlt a (by simp)))
      · have hfold : List.foldl (scanStep m) (v, w) (a :: t)
            = List.foldl (scanStep m) (v, w) t := by
          simp [List.foldl_cons, scanStep, hstep]
        obtain ⟨i1, i2, i3, i4, i5, i6⟩ :=
          ih v w (fun c hc => hlt c (List.mem_cons_of_mem _ hc)) hpt hk
        rw [hfold]
        refine ⟨i1, i2, ?_, ?_, ?_, i6⟩
        · intro c hc
          rcases List.mem_cons.mp hc with rfl | hc'
          · exact le_trans i2 (le_of_lt (lt_of_not_le hstep))
          · exact i3 c hc'
        · rcases i4 with h' | h'
          · exact Or.inl h'
          · exact Or.inr (List.mem_cons_of_mem _ h')
        · intro c hc hkey
          rcases List.mem_cons.mp hc with rfl | hc'
          · exact ((hstep (le_of_eq_of_le hkey i2)).elim)
          · exact i5 c hc' hkey

/-- The scan order starts at the region's highest slot address. -/
theorem slotAddrs_eq : slotAddrs = 65408 :: slotTail := by
  rw [slotAddrs, slotTail, show (480 : Nat) = 479 + 1 from rfl, List.range_succ_eq_map,
    List.map_cons, List.map_map]
  congr 1

/-- The scanned slot addresses strictly decrease. -/
theorem slotAddrs_pairwise : slotAddrs.Pairwise (· > ·) := by
  simp only [slotAddrs]
  rw [List.pairwise_map]
  refine (List.pairwise_lt_range 480).imp_of_mem ?_
  intro i j hi hj hij
  rw [List.mem_range] at hi hj
  omega

/-- C1 (amended): header recovery at boot scans every header slot (0xff80
down to 0x1000, stride 0x80), decodes the 32-bit key from the first 4 bytes
of each slot, and selects the slot with the numerically minimum key — but
ties are broken by preferring the LAST-scanned (lowest-address) slot, since
the scan updates on `val <= unix_tm_inv`; the in-memory header is then
loaded from the selected slot. -/
theorem c1_header_recovery (m d : Mem) (s : Nat) (hs : s ∈ slotAddrs) :
    (header_search m).2 ∈ slotAddrs ∧
    decodeKey m (header_search m).2 = (header_search m).1 ∧
    (header_search m).1 ≤ decodeKey m s ∧
    (decodeKey m s = (header_search m).1 → (header_search m).2 ≤ s) ∧
    (recoverState m d).dh = decodeHeader (readBlockMem m (header_search m).2 8) := by
  have hpw := slotAddrs_pairwise
  rw [slotAddrs_eq, List.pairwise_cons] at hpw
  obtain ⟨hlt, hpt⟩ := hpw
  have hinit : header_search m = List.foldl (scanStep m) (decodeKey m 65408, 65408) slotTail := by
    rw [header_search, slotAddrs_eq, List.foldl_cons]
    have hle : decodeKey m 65408 ≤ 4294967295 := decodeKey_le m 65408
    have hacc : scanStep m (4294967295, 65408) 65408 = (decodeKey m 65408, 65408) := by
      simp only [scanStep]
      rw [if_pos]
      exact hle
    rw [hacc]
  obtain ⟨i1, i2, i3, i4, i5, i6⟩ :=
    scan_fold_spec m slotTail (decodeKey m 65408) 65408 hlt hpt rfl
  rw [← hinit] at i1 i2 i3 i4 i5 i6
  rw [slotAddrs_eq] at hs ⊢
  refine ⟨?_, i1, ?_, ?_, rfl⟩
  · rcases i4 with h' | h'
    · exact h' ▸ List.mem_cons_self _ _
    · exact List.mem_cons_of_mem _ h'
  · rcases List.mem_cons.mp hs with rfl | hs'
    · exact i2
    · exact i3 s hs'
  · intro hkey
    rcases List.mem_cons.mp hs with rfl | hs'
    · exact i6
    · exact i5 s hs' hkey

/-- The scanned address list splits into its two halves. -/
theorem slotAddrs_split : slotAddrs = slotsA ++ slotsB := by
  rw [slotAddrs, slotsA, slotsB, show (480 : Nat) = 240 + 240 from rfl, List.range_add,
    List.map_append, List.map_map]
  congr 1

/-- Evaluation of the scan over the first half of the tie memory. -/
theorem c1mem_scanA :
    List.foldl (scanStep c1mem) (4294967295, 65408) slotsA = (5, 65280) := by decide

/-- Evaluation of the scan over the second half of the tie memory. -/
theorem c1mem_scanB :
    List.foldl (scanStep c1mem) (5, 65280) slotsB = (5, 65280) := by decide

/-- C1 counterexample: in a header memory where the first-scanned slot 0xff80
and the slot 0xff00 both hold key 5 — which is the scan's final minimum, so
0xff80 is a minimum-key slot — the claim as stated predicts that recovery
selects the first-scanned slot 0xff80, but the code selects 0xff00. -/
theorem c1_counterexample :
    decodeKey c1mem 65408 = 5 ∧ decodeKey c1mem 65280 = 5 ∧
    header_search c1mem = (5, 65280) ∧ (65280 : Nat) ≠ 65408 := by
  refine ⟨by decide, by decide, ?_, by decide⟩
  rw [header_search, slotAddrs_split, List.foldl_append, c1mem_scanA, c1mem_scanB]

/-- Witness for C1: the amended theorem instantiated at the concrete tie
memory and the first-scanned slot address. -/
theorem c1_header_recovery_witness :
    (header_search c1mem).2 ∈ slotAddrs ∧
    decodeKey c1mem (header_search c1mem).2 = (header_search c1mem).1 ∧
    (header_search c1mem).1 ≤ decodeKey c1mem 65408 ∧
    (decodeKey c1mem 65408 = (header_search c1mem).1 → (header_search c1mem).2 ≤ 65408) ∧
    (recoverState c1mem (constMem 255)).dh
      = decodeHeader (readBlockMem c1mem (header_search c1mem).2 8) :=
  c1_header_recovery c1mem (constMem 255) 65408 (by decide)

/-- The record walk emits at most `fuel` records. -/
theorem logWalk_length_le (m : Mem) :
    ∀ (F a b : Nat), (logWalk m F a b).length ≤ F := by
  intro F
  induction F with
  | zero => intro a b; simp [logWalk]
  | succ n ih =>
      intro a b
      simp only [logWalk]
      split
      · simp
      · simpa using ih _ _

/-- Closed form of the record walk on an aligned live range: walking back
from `(c + 64 u) mod 65536` towards `c` with `u` live records emits
`min u fuel` records, newest first. -/
theorem logWalk_spec (m : Mem) :
    ∀ (u F c : Nat), c < 65536 → u ≤ 1023 →
      logWalk m F ((c + 64 * u) % 65536) c =
        (List.range (min u F)).map fun i => readBlockMem m ((c + 64 * (u - 1 - i)) % 65536) 64 := by
  intro u
  induction u with
  | zero =>
      intro F c hc _
      have h0 : (c + 64 * 0) % 65536 = c := by omega
      rw [h0]
      cases F <;> simp [logWalk]
  | succ n ih =>
      intro F c hc hn
      cases F with
      | zero => simp [logWalk]
      | succ f =>
          have hne : (c + 64 * (n + 1)) % 65536 ≠ c := by omega
          have hstep : ((c + 64 * (n + 1)) % 65536 + 65536 - 64) % 65536 = (c + 64 * n) % 65536 := by
            omega
          simp only [logWalk, if_neg hne, hstep]
          rw [ih f c hc (by omega)]
          rw [show min (n + 1) (f + 1) = min n f + 1 by omega, List.range_succ_eq_map,
            List.map_cons, List.map_map]
          refine List.cons_eq_cons.mpr ⟨?_, ?_⟩
          · exact congrArg (fun z => readBlockMem m z 64) (by omega)
          · apply List.map_congr_left
            intro i hi
            exact congrArg (fun z => readBlockMem m z 64) (by omega)

/-- C10: the bounded log read (`responseLog`, serving / and /log) emits the
`no data` body exactly when the stored header has `a = b`; it emits at most
32 records per request; and on an aligned nonempty range it emits exactly
`min(live, 32)` records, walking backward from the newest address in 64-byte
steps. -/
theorem c10_response_log_bounded (st : LoggerState) :
    (responseLog st = none ↔ (storedHeader st).a = (storedHeader st).b) ∧
    (∀ L, responseLog st = some L → L.length ≤ 32) ∧
    ((storedHeader st).a ≠ (storedHeader st).b →
      64 ∣ (((storedHeader st).a + 65536 - (storedHeader st).b) % 65536) →
      responseLog st = some ((List.range
          (min ((((storedHeader st).a + 65536 - (storedHeader st).b) % 65536) / 64) 32)).map
        fun i => readBlockMem st.ee_d (((storedHeader st).a + 65536 - 64 * (i + 1)) % 65536) 64)) := by
  have hav := storedHeader_a_lt st
  have hbv := storedHeader_b_lt st
  refine ⟨?_, ?_, ?_⟩
  · constructor
    · intro hnone
      by_contra hne
      simp [responseLog, hne] at hnone
    · intro heq
      simp [responseLog, heq]
  · intro L hL
    by_cases hne : (storedHeader st).a = (storedHeader st).b
    · simp [responseLog, hne] at hL
    · simp only [responseLog, if_pos (by exact hne), Option.some_inj] at hL
      rw [← hL]
      exact logWalk_length_le st.ee_d 32 _ _
  · intro hne hdvd
    obtain ⟨u, hu⟩ := hdvd
    have hu1 : 1 ≤ u := by omega
    have hu2 : u ≤ 1023 := by omega
    have haeq : (storedHeader st).a = ((storedHeader st).b + 64 * u) % 65536 := by omega
    have hwalk := logWalk_spec st.ee_d u 32 (storedHeader st).b hbv hu2
    simp only [responseLog, if_pos (by exact hne)]
    have hdiv : (((storedHeader st).a + 65536 - (storedHeader st).b) % 65536) / 64 = u := by
      omega
    rw [hdiv, haeq, hwalk]
    refine congrArg some ?_
    apply List.map_congr_left
    intro i hi
    rw [List.mem_range] at hi
    exact congrArg (fun z => readBlockMem st.ee_d z 64) (by omega)

/-- Witness for C10: the bounded log read instantiated at a concrete state
with 4 live records. -/
theorem c10_response_log_bounded_witness :
    (responseLog tstate = none ↔ (storedHeader tstate).a = (storedHeader tstate).b) ∧
    (∀ L, responseLog tstate = some L → L.length ≤ 32) ∧
    ((storedHeader tstate).a ≠ (storedHeader tstate).b →
      64 ∣ (((storedHeader tstate).a + 65536 - (storedHeader tstate).b) % 65536) →
      responseLog tstate = some ((List.range
          (min ((((storedHeader tstate).a + 65536 - (storedHeader tstate).b) % 65536) / 64) 32)).map
        fun i => readBlockMem tstate.ee_d
          (((storedHeader tstate).a + 65536 - 64 * (i + 1)) % 65536) 64)) :=
  c10_response_log_bounded tstate

/-- C9: the header slot encoding round-trips: writing the 8-byte form that
`write_data_header` produces (key bytes 0-3 LE, newest address bytes 4-5 LE,
oldest address bytes 6-7 LE) at any slot address and decoding those 8 bytes
as `read_data_header` does returns the same three values. -/
theorem c9_header_roundtrip (m : Mem) (addr : Nat) (h : DataHeader)
    (ha : h.a < 65536) (hb : h.b < 65536) (ht : h.t < 4294967296) :
    decodeHeader (readBlockMem (writeBlockMem m addr (encodeHeader h)) addr 8) = h ∧
    decodeHeader (encodeHeader h) = h :=
  ⟨storedHeader_roundtrip m addr h ha hb ht, decode_encode h ha hb ht⟩

/-- Witness for C9: the round-trip at a concrete header and slot. -/
theorem c9_header_roundtrip_witness :
    decodeHeader (readBlockMem (writeBlockMem (constMem 255) 65408
      (encodeHeader ⟨192, 64, 123456⟩)) 65408 8) = ⟨192, 64, 123456⟩ ∧
    decodeHeader (encodeHeader ⟨192, 64, 123456⟩) = ⟨192, 64, 123456⟩ :=
  c9_header_roundtrip (constMem 255) 65408 ⟨192, 64, 123456⟩ (by norm_num) (by norm_num)
    (by norm_num)

/-- C7 (amended): starting from the boot cursor 0xff80, the i-th commit
(i = 1..M) lands on slot address `0xff80 - (i mod 480) * 0x80`: each commit
steps to the next lower slot address, the wrap from the lowest slot 0x1000
lands exactly back on 0xff80 (slot index 0), and every slot address repeats
with period 480. -/
theorem c7_wear_leveling (M : Nat) (_hM : 1 ≤ M) :
    commitAddrs M = (List.range M).map (fun i => 65408 - ((i + 1) % 480) * 128) ∧
    dhAddrAfter 480 = 65408 ∧
    (∀ n, dhAddrAfter (n + 480) = dhAddrAfter n) := by
  refine ⟨?_, by rw [dhAddrAfter_formula], ?_⟩
  · apply List.map_congr_left
    intro i hi
    rw [dhAddrAfter_formula]
    omega
  · intro n
    rw [dhAddrAfter_formula, dhAddrAfter_formula, Nat.add_mod_right]

/-- Witness for C7: the amended statement at M = 2. -/
theorem c7_wear_leveling_witness :
    commitAddrs 2 = (List.range 2).map (fun i => 65408 - ((i + 1) % 480) * 128) ∧
    dhAddrAfter 480 = 65408 ∧
    (∀ n, dhAddrAfter (n + 480) = dhAddrAfter n) :=
  c7_wear_leveling 2 (by norm_num)

/-- C7 counterexample: after M = 1 commit the only address written is 0xff00,
while the claimed set `start - (i mod slot_count) * stride` for i in 0..M
contains the never-written boot address 0xff80 (under both the inclusive and
the exclusive reading of the range, since it is the i = 0 element). -/
theorem c7_counterexample :
    commitAddrs 1 = [65280] ∧
    (65408 ∈ wearAddrsClaimed 1) ∧ (65408 ∉ commitAddrs 1) := by
  refine ⟨by decide, by decide, by decide⟩

/-- Unfolding of a successful append: the record lands at the stored newest
address, the bounds advance with ring arithmetic, and the new header is
committed to the next slot. -/
theorem record_ok_eq (st : LoggerState) (data : List Nat) (now : Nat) :
    record_data_page_write_mode st data true true now =
      { dh_addr := nextSlot st.dh_addr,
        dh := ⟨((storedHeader st).a + 64) % 65536,
              (if ((storedHeader st).a + 64) % 65536 = (storedHeader st).b
               then ((storedHeader st).b + 64) % 65536 else (storedHeader st).b),
              4294967295 - now % 4294967296⟩,
        ee_h := writeBlockMem st.ee_h (nextSlot st.dh_addr)
          (encodeHeader ⟨((storedHeader st).a + 64) % 65536,
            (if ((storedHeader st).a + 64) % 65536 = (storedHeader st).b
             then ((storedHeader st).b + 64) % 65536 else (storedHeader st).b),
            4294967295 - now % 4294967296⟩),
        ee_d := writeBlockMem st.ee_d (storedHeader st).a data } := rfl

/-- Unfolding of a failed append: only the in-RAM header is refreshed from
storage; nothing is written. -/
theorem record_fail_eq (st : LoggerState) (data : List Nat) (now : Nat) (okH : Bool) :
    record_data_page_write_mode st data false okH now = { st with dh := storedHeader st } := rfl

/-- A successful append advances the stored newest address by 64 mod 65536,
advances the oldest address by 64 exactly when the ring becomes full, and
commits: the slot read back at the new cursor equals the new in-RAM header. -/
theorem record_ok_commits (st : LoggerState) (data : List Nat) (now : Nat) :
    (record_data_page_write_mode st data true true now).dh.a
      = ((storedHeader st).a + 64) % 65536 ∧
    (record_data_page_write_mode st data true true now).dh.b
      = (if ((storedHeader st).a + 64) % 65536 = (storedHeader st).b
         then ((storedHeader st).b + 64) % 65536 else (storedHeader st).b) ∧
    storedHeader (record_data_page_write_mode st data true true now)
      = (record_data_page_write_mode st data true true now).dh := by
  have hb2 := storedHeader_b_lt st
  rw [record_ok_eq]
  refine ⟨rfl, rfl, ?_⟩
  simp only [storedHeader]
  exact storedHeader_roundtrip _ _ _ (by dsimp only; exact Nat.mod_lt _ (by norm_num))
    (by dsimp only
        split
        · exact Nat.mod_lt _ (by norm_num)
        · exact hb2) (by dsimp only; omega)

/-- C2: if the storage write of the record fails, the append is a no-op on
everything durable: the in-memory and stored header bounds keep their
pre-append values (in a consistent state), no header slot is written and the
cursor does not move; and it fails only then — with the storage write
succeeding, the newest address advances and the header is committed. -/
theorem c2_append_failure_atomic (st : LoggerState) (data : List Nat) (now : Nat) (okH : Bool)
    (hac : st.dh.a = (storedHeader st).a) (hbc : st.dh.b = (storedHeader st).b) :
    ((record_data_page_write_mode st data false okH now).dh.a = st.dh.a ∧
     (record_data_page_write_mode st data false okH now).dh.b = st.dh.b ∧
     (record_data_page_write_mode st data false okH now).ee_h = st.ee_h ∧
     (record_data_page_write_mode st data false okH now).dh_addr = st.dh_addr ∧
     (record_data_page_write_mode st data false okH now).ee_d = st.ee_d ∧
     storedHeader (record_data_page_write_mode st data false okH now) = storedHeader st) ∧
    ((record_data_page_write_mode st data true true now).dh.a
       = ((storedHeader st).a + 64) % 65536 ∧
     storedHeader (record_data_page_write_mode st data true true now)
       = (record_data_page_write_mode st data true true now).dh) := by
  constructor
  · rw [record_fail_eq]
    exact ⟨hac.symm, hbc.symm, rfl, rfl, rfl, rfl⟩
  · exact ⟨(record_ok_commits st data now).1, (record_ok_commits st data now).2.2⟩

/-- Witness for C2: the atomicity statement at the concrete consistent state,
with a concrete record. -/
theorem c2_append_failure_atomic_witness :
    ((record_data_page_write_mode tstate (recOf 9) false true 7).dh.a = tstate.dh.a ∧
     (record_data_page_write_mode tstate (recOf 9) false true 7).dh.b = tstate.dh.b ∧
     (record_data_page_write_mode tstate (recOf 9) false true 7).ee_h = tstate.ee_h ∧
     (record_data_page_write_mode tstate (recOf 9) false true 7).dh_addr = tstate.dh_addr ∧
     (record_data_page_write_mode tstate (recOf 9) false true 7).ee_d = tstate.ee_d ∧
     storedHeader (record_data_page_write_mode tstate (recOf 9) false true 7)
       = storedHeader tstate) ∧
    ((record_data_page_write_mode tstate (recOf 9) true true 7).dh.a
       = ((storedHeader tstate).a + 64) % 65536 ∧
     storedHeader (record_data_page_write_mode tstate (recOf 9) true true 7)
       = (record_data_page_write_mode tstate (recOf 9) true true 7).dh) :=
  c2_append_failure_atomic tstate (recOf 9) 7 true (by decide) (by decide)

/-- C3: a successful append writes the record at the stored newest address,
advances the newest address by 64 bytes wrapping at the region's capacity
boundary 0x10000, advances the oldest address by 64 exactly when the
advanced newest address reaches it (overwrite-when-full), and then commits
the header. -/
theorem c3_append_ring_policy (st : LoggerState) (data : List Nat) (now : Nat)
    (hlen : data.length = 64) (hbytes : ∀ x ∈ data, x < 256) :
    readBlockMem (record_data_page_write_mode st data true true now).ee_d
      (storedHeader st).a 64 = data ∧
    (record_data_page_write_mode st data true true now).dh.a
      = ((storedHeader st).a + 64) % 65536 ∧
    (record_data_page_write_mode st data true true now).dh.b
      = (if ((storedHeader st).a + 64) % 65536 = (storedHeader st).b
         then ((storedHeader st).b + 64) % 65536 else (storedHeader st).b) ∧
    storedHeader (record_data_page_write_mode st data true true now)
      = (record_data_page_write_mode st data true true now).dh := by
  refine ⟨?_, (record_ok_commits st data now).1, (record_ok_commits st data now).2.1,
    (record_ok_commits st data now).2.2⟩
  rw [record_ok_eq]
  have hrw := readBlockMem_writeBlockMem data st.ee_d (storedHeader st).a (by omega) hbytes
  rw [hlen] at hrw
  exact hrw

/-- Witness for C3: the append at the concrete state with a concrete record. -/
theorem c3_append_ring_policy_witness :
    readBlockMem (record_data_page_write_mode tstate (recOf 9) true true 7).ee_d
      (storedHeader tstate).a 64 = recOf 9 ∧
    (record_data_page_write_mode tstate (recOf 9) true true 7).dh.a
      = ((storedHeader tstate).a + 64) % 65536 ∧
    (record_data_page_write_mode tstate (recOf 9) true true 7).dh.b
      = (if ((storedHeader tstate).a + 64) % 65536 = (storedHeader tstate).b
         then ((storedHeader tstate).b + 64) % 65536 else (storedHeader tstate).b) ∧
    storedHeader (record_data_page_write_mode tstate (recOf 9) true true 7)
      = (record_data_page_write_mode tstate (recOf 9) true true 7).dh :=
  c3_append_ring_policy tstate (recOf 9) 7 (by decide)
    (fun x hx => by rcases List.eq_of_mem_replicate hx with rfl; norm_num)

/-- Unfolding of the clear operation with a successful header write. -/
theorem clear_eq (st : LoggerState) (now : Nat) :
    clear_logs st now true =
      { dh_addr := nextSlot st.dh_addr,
        dh := ⟨st.dh.a, st.dh.a, 4294967295 - now % 4294967296⟩,
        ee_h := writeBlockMem st.ee_h (nextSlot st.dh_addr)
          (encodeHeader ⟨st.dh.a, st.dh.a, 4294967295 - now % 4294967296⟩),
        ee_d := st.ee_d } := rfl

/-- C8: the clear operation sets the oldest address to the in-memory newest
address and commits exactly one header slot: it leaves the data EEPROM (the
Event Log region) untouched and changes the header EEPROM only within the 8
bytes of the next slot; afterwards the bounded log read yields `no data`
even though the log's physical bytes are unchanged, and a subsequent append
succeeds (newest address advances and the header commits) with no erase in
between. -/
theorem c8_clear_frame (st : LoggerState) (now now2 : Nat) (r : List Nat)
    (ha : st.dh.a < 65536) :
    (clear_logs st now true).dh.a = st.dh.a ∧
    (clear_logs st now true).dh.b = st.dh.a ∧
    (clear_logs st now true).ee_d = st.ee_d ∧
    (∀ x, (∀ i, i < 8 → x ≠ (nextSlot st.dh_addr + i) % 65536) →
      (clear_logs st now true).ee_h x = st.ee_h x) ∧
    storedHeader (clear_logs st now true)
      = ⟨st.dh.a, st.dh.a, 4294967295 - now % 4294967296⟩ ∧
    responseLog (clear_logs st now true) = none ∧
    (record_data_page_write_mode (clear_logs st now true) r true true now2).dh.a
      = (st.dh.a + 64) % 65536 ∧
    storedHeader (record_data_page_write_mode (clear_logs st now true) r true true now2)
      = (record_data_page_write_mode (clear_logs st now true) r true true now2).dh := by
  have hstoredL : storedHeader
      ({ dh_addr := nextSlot st.dh_addr,
         dh := ⟨st.dh.a, st.dh.a, 4294967295 - now % 4294967296⟩,
         ee_h := writeBlockMem st.ee_h (nextSlot st.dh_addr)
           (encodeHeader ⟨st.dh.a, st.dh.a, 4294967295 - now % 4294967296⟩),
         ee_d := st.ee_d } : LoggerState)
      = ⟨st.dh.a, st.dh.a, 4294967295 - now % 4294967296⟩ := by
    simp only [storedHeader]
    exact storedHeader_roundtrip _ _ _ (by dsimp only; exact ha) (by dsimp only; exact ha)
      (by dsimp only; omega)
  refine ⟨?_, ?_, ?_, ?_, ?_, ?_, ?_, ?_⟩
  · rw [clear_eq]
  · rw [clear_eq]
  · rw [clear_eq]
  · intro x hx
    rw [clear_eq]
    apply writeBlockMem_eq_of_notin
    intro k hk
    exact hx k (by simpa [encodeHeader] using hk)
  · rw [clear_eq]
    exact hstoredL
  · rw [clear_eq]
    simp [responseLog, hstoredL]
  · rw [clear_eq, (record_ok_commits _ r now2).1, hstoredL]
  · rw [clear_eq]
    exact (record_ok_commits _ r now2).2.2

/-- Witness for C8: the clear at the concrete consistent state. -/
theorem c8_clear_frame_witness :
    (clear_logs tstate 11 true).dh.a = tstate.dh.a ∧
    (clear_logs tstate 11 true).dh.b = tstate.dh.a ∧
    (clear_logs tstate 11 true).ee_d = tstate.ee_d ∧
    (∀ x, (∀ i, i < 8 → x ≠ (nextSlot tstate.dh_addr + i) % 65536) →
      (clear_logs tstate 11 true).ee_h x = tstate.ee_h x) ∧
    storedHeader (clear_logs tstate 11 true)
      = ⟨tstate.dh.a, tstate.dh.a, 4294967295 - 11 % 4294967296⟩ ∧
    responseLog (clear_logs tstate 11 true) = none ∧
    (record_data_page_write_mode (clear_logs tstate 11 true) (recOf 9) true true 12).dh.a
      = (tstate.dh.a + 64) % 65536 ∧
    storedHeader (record_data_page_write_mode (clear_logs tstate 11 true) (recOf 9) true true 12)
      = (record_data_page_write_mode (clear_logs tstate 11 true) (recOf 9) true true 12).dh :=
  c8_clear_frame tstate 11 12 (recOf 9) (by decide)

/-- One successful append preserves the ring invariant, extending the list
of live-window records by the new record. -/
theorem ringInv_step (a0 j0 now : Nat) (ws : List (List Nat)) (st : LoggerState)
    (r : List Nat) (_ha0 : a0 < 65536) (inv : ringInv a0 j0 ws st)
    (hr : r.length = 64) (hrb : ∀ x ∈ r, x < 256) :
    ringInv a0 j0 (ws ++ [r]) (record_data_page_write_mode st r true true now) := by
  obtain ⟨iaddr, ia, ib, imem⟩ := inv
  have hlen1 : (ws ++ [r]).length = ws.length + 1 := by simp
  have hrc := record_ok_commits st r now
  refine ⟨?_, ?_, ?_, ?_⟩
  · rw [hlen1, record_ok_eq]
    dsimp only
    rw [iaddr, show j0 + (ws.length + 1) = j0 + ws.length + 1 by omega]
    exact nextSlot_formula (j0 + ws.length)
  · rw [hlen1, hrc.2.2, hrc.1, ia]
    omega
  · rw [hlen1, hrc.2.2, hrc.2.1, ia, ib]
    split <;> omega
  · intro m hm1 hm2
    rw [hlen1] at hm1 hm2
    rw [record_ok_eq]
    dsimp only
    rw [ia]
    by_cases hmn : m = ws.length
    · rw [hmn]
      have hw := readBlockMem_writeBlockMem r st.ee_d ((a0 + 64 * ws.length) % 65536)
        (by omega) hrb
      rw [hr] at hw
      rw [hw, List.getD_append_right ws [r] [] ws.length (le_refl _)]
      simp
    · have hmlt : m < ws.length := by omega
      have hframe := readBlockMem_write_of_disjoint 64 ((a0 + 64 * m) % 65536) st.ee_d
        ((a0 + 64 * ws.length) % 65536) r
        (by intro i hi k hk
            rw [hr] at hk
            omega)
      rw [hframe, List.getD_append ws [r] [] m hmlt]
      exact imem m (by omega) hmlt

/-- The ring invariant holds for the canonical empty start state with no
records appended. -/
theorem ringInv_init (a0 j0 t0 : Nat) (h0 d0 : Mem)
    (hj : j0 < 480) (ha0 : a0 < 65536) (ht0 : t0 < 4294967296) :
    ringInv a0 j0 [] (emptyStart j0 t0 a0 h0 d0) := by
  have hrt := storedHeader_roundtrip h0 (65408 - 128 * j0) ⟨a0, a0, t0⟩ ha0 ha0 ht0
  refine ⟨?_, ?_, ?_, ?_⟩
  · simp only [emptyStart, List.length_nil]
    omega
  · simp only [emptyStart, storedHeader, List.length_nil]
    rw [hrt]
    dsimp only
    omega
  · simp only [emptyStart, storedHeader, List.length_nil]
    rw [hrt]
    dsimp only
    omega
  · intro m hm1 hm2
    simp only [List.length_nil] at hm2
    omega

/-- Appending a batch of records propagates the ring invariant. -/
theorem ringInv_appendAll (a0 j0 now : Nat) (ha0 : a0 < 65536) :
    ∀ (l ws : List (List Nat)) (st : LoggerState), ringInv a0 j0 ws st →
      (∀ r ∈ l, r.length = 64 ∧ ∀ x ∈ r, x < 256) →
      ringInv a0 j0 (ws ++ l) (appendAll st l now) := by
  intro l
  induction l with
  | nil =>
      intro ws st inv _
      simpa [appendAll] using inv
  | cons r t ih =>
      intro ws st inv hok
      have h1 := ringInv_step a0 j0 now ws st r ha0 inv (hok r (by simp)).1 (hok r (by simp)).2
      have h2 := ih (ws ++ [r]) (record_data_page_write_mode st r true true now) h1
        (fun q hq => hok q (by simp [hq]))
      have h3 : appendAll st (r :: t) now
          = appendAll (record_data_page_write_mode st r true true now) t now := by
        simp only [appendAll, List.foldl_cons]
      rw [h3]
      rw [List.append_assoc, List.singleton_append] at h2
      exact h2

/-- The unbounded dump walk on a state whose stored bounds delimit an aligned
live range of u records emits exactly those u records newest first. -/
theorem dump_spec (st : LoggerState) (c u : Nat) (hc : c < 65536)
    (hu1 : 1 ≤ u) (hu2 : u ≤ 1023)
    (hha : (storedHeader st).a = (c + 64 * u) % 65536)
    (hhb : (storedHeader st).b = c) :
    dump_log st = some ((List.range u).map fun i =>
      readBlockMem st.ee_d ((c + 64 * (u - 1 - i)) % 65536) 64) := by
  have hne : (storedHeader st).a ≠ (storedHeader st).b := by
    rw [hha, hhb]
    omega
  simp only [dump_log, if_pos (by exact hne)]
  rw [hha, hhb, logWalk_spec st.ee_d u 1024 c hc hu2,
    show min u 1024 = u by omega]

/-- Reading the live window newest-first through `getD` is the reverse of the
list's final segment. -/
theorem rangeMap_getD_reverse (rs : List (List Nat)) :
    ∀ L, L ≤ rs.length →
      (List.range L).map (fun i => rs.getD (rs.length - 1 - i) [])
        = (rs.drop (rs.length - L)).reverse := by
  intro L
  induction L with
  | zero => simp [List.drop_length]
  | succ L ih =>
      intro hL
      rw [List.range_succ, List.map_append, ih (by omega)]
      have hidx : rs.length - (L + 1) < rs.length := by omega
      rw [List.drop_eq_getElem_cons hidx, List.reverse_cons,
        show rs.length - (L + 1) + 1 = rs.length - L by omega]
      have h2 : rs.getD (rs.length - 1 - L) [] = rs[rs.length - (L + 1)] := by
        rw [show rs.length - 1 - L = rs.length - (L + 1) by omega]
        exact List.getD_eq_getElem rs [] hidx
      rw [List.map_singleton, h2]

/-- C4 (amended): appending capacity + k records (capacity = 1024 records of
64 bytes, k >= 1) into an empty log leaves exactly capacity - 1 = 1023
records readable by the newest-first unbounded dump walk, and those records
are the (k+2)-th through (capacity+k)-th appended records, newest first (the
ring represents full as one free slot: when the advanced newest address
reaches the oldest one, the oldest record is discarded, so at most 1023
records are ever live). -/
theorem c4_ring_overwrite (k : Nat) (rs : List (List Nat)) (j0 t0 a0 now : Nat)
    (h0 d0 : Mem) (hk : 1 ≤ k) (hlen : rs.length = 1024 + k)
    (hrs : ∀ r ∈ rs, r.length = 64 ∧ ∀ x ∈ r, x < 256)
    (hj : j0 < 480) (ha0 : a0 < 65536) (ht0 : t0 < 4294967296) :
    dump_log (appendAll (emptyStart j0 t0 a0 h0 d0) rs now)
      = some ((rs.drop (k + 1)).reverse) ∧
    (rs.drop (k + 1)).reverse.length = 1023 := by
  have hinv := ringInv_appendAll a0 j0 now ha0 rs [] (emptyStart j0 t0 a0 h0 d0)
    (ringInv_init a0 j0 t0 h0 d0 hj ha0 ht0) hrs
  rw [List.nil_append] at hinv
  obtain ⟨iaddr, ia, ib, imem⟩ := hinv
  have hlen2 : (rs.drop (k + 1)).reverse.length = 1023 := by
    rw [List.length_reverse, List.length_drop, hlen]
    omega
  refine ⟨?_, hlen2⟩
  have hcb : (storedHeader (appendAll (emptyStart j0 t0 a0 h0 d0) rs now)).b
      = (a0 + 64 * (k + 1)) % 65536 := by
    rw [ib, hlen]
    omega
  have hca : (storedHeader (appendAll (emptyStart j0 t0 a0 h0 d0) rs now)).a
      = ((a0 + 64 * (k + 1)) % 65536 + 64 * 1023) % 65536 := by
    rw [ia, hlen]
    omega
  rw [dump_spec (appendAll (emptyStart j0 t0 a0 h0 d0) rs now) ((a0 + 64 * (k + 1)) % 65536)
    1023 (Nat.mod_lt _ (by norm_num)) (by norm_num) (by norm_num) hca hcb]
  refine congrArg some ?_
  have hmap : ∀ i ∈ List.range 1023,
      readBlockMem (appendAll (emptyStart j0 t0 a0 h0 d0) rs now).ee_d
          (((a0 + 64 * (k + 1)) % 65536 + 64 * (1023 - 1 - i)) % 65536) 64
        = rs.getD (rs.length - 1 - i) [] := by
    intro i hi
    rw [List.mem_range] at hi
    have haddr : ((a0 + 64 * (k + 1)) % 65536 + 64 * (1023 - 1 - i)) % 65536
        = (a0 + 64 * (rs.length - 1 - i)) % 65536 := by
      rw [hlen]
      omega
    rw [haddr]
    exact imem _ (by omega) (by omega)
  rw [List.map_congr_left hmap, rangeMap_getD_reverse rs 1023 (by omega),
    show rs.length - 1023 = k + 1 by omega]

/-- Witness for C4: the amended ring-overwrite statement at k = 1 with 1025
concrete records. -/
theorem c4_ring_overwrite_witness :
    dump_log c4st = some ((c4rs.drop 2).reverse) ∧ (c4rs.drop 2).reverse.length = 1023 :=
  c4_ring_overwrite 1 c4rs 0 77 0 5000 (constMem 255) (constMem 255) (by norm_num)
    (by simp [c4rs])
    (by intro r hr
        rcases List.eq_of_mem_replicate hr with rfl
        refine ⟨by simp [recOf], ?_⟩
        intro x hx
        rcases List.eq_of_mem_replicate hx with rfl
        norm_num)
    (by norm_num) (by norm_num) (by norm_num)

/-- C4 counterexample: appending capacity + 1 = 1025 records into the empty
log leaves only 1023 records readable by the dump walk, not the claimed
capacity = 1024. -/
theorem c4_counterexample :
    c4rs.length = 1024 + 1 ∧
    ((dump_log c4st).getD []).length = 1023 ∧ (1023 : Nat) ≠ 1024 := by
  have hrs : ∀ r ∈ c4rs, r.length = 64 ∧ ∀ x ∈ r, x < 256 := by
    intro r hr
    rcases List.eq_of_mem_replicate hr with rfl
    refine ⟨by simp [recOf], ?_⟩
    intro x hx
    rcases List.eq_of_mem_replicate hx with rfl
    norm_num
  have hlen : c4rs.length = 1024 + 1 := by simp [c4rs]
  have hinv := ringInv_appendAll 0 0 5000 (by norm_num) c4rs []
    (emptyStart 0 77 0 (constMem 255) (constMem 255))
    (ringInv_init 0 0 77 (constMem 255) (constMem 255) (by norm_num) (by norm_num)
      (by norm_num)) hrs
  rw [List.nil_append] at hinv
  obtain ⟨iaddr, ia, ib, imem⟩ := hinv
  have hcb : (storedHeader c4st).b = 128 := by
    simp only [c4st]
    rw [ib, hlen]
  have hca : (storedHeader c4st).a = (128 + 64 * 1023) % 65536 := by
    simp only [c4st]
    rw [ia, hlen]
  have hd := dump_spec c4st 128 1023 (by norm_num) (by norm_num) (by norm_num) hca hcb
  refine ⟨hlen, ?_, by norm_num⟩
  rw [hd]
  simp

/-- C5: starting from the empty log with a = b = 0x0000, appending 3 records
of 64 bytes each yields in-memory a = 0x00c0 and b = 0x0000 and the bounded
newest-first read returns exactly the 3 records in reverse append order; the
subsequent clear yields a = b = 0x00c0 and the read then reports `no data`
(zero records). -/
theorem c5_concrete_scenario :
    c5st3.dh.a = 192 ∧ c5st3.dh.b = 0 ∧
    responseLog c5st3 = some [recOf 67, recOf 66, recOf 65] ∧
    c5cleared.dh.a = 192 ∧ c5cleared.dh.b = 192 ∧
    responseLog c5cleared = none := by
  refine ⟨by decide, by decide, by decide, by decide, by decide, by decide⟩

/-- C6: from a line settled at 0, the sample sequence 0,1,1,1,1 produces
exactly one OFF-to-ON event, and the pure bounce sequence 0,1,0,1,0
(never stable across two consecutive samples) produces no event. -/
theorem c6_debounce_idempotence :
    (feedSamples ⟨0, 0, 0⟩ [0, 1, 1, 1, 1]).2 = [(0, true)] ∧
    (feedSamples ⟨0, 0, 0⟩ [0, 1, 0, 1, 0]).2 = [] := by
  constructor <;> rfl

end DataLogger
